import Mathlib

/-!
# Event collector and query tool: a verification development

Shallow embedding of `event-pusher/main.go` (the coalescing `EventStore`, the
retry loop `pushEventsWithRetry`, the payload built by `pushEvents`,
`getTimestamp`) and of `event-queryer/main.go` (`printResults`,
`parseUnixNano`, `printEvent`).

Conventions of the embedding.
* Go strings are Lean `String`s; library string functions are defined on the
  underlying character lists. The separators the program searches for (`/`,
  `Message: `, digits and signs) are ASCII, so for UTF-8 text a search by
  characters finds what Go's search by bytes finds.
* `int64` values are `Int`s reduced with `wrapInt64` wherever Go arithmetic can
  wrap.
* A Go `map[string]*v1.Event` is a list of bindings with pairwise distinct keys.
  Go leaves the iteration order of a map unspecified; statements about what a
  `range` loop collects are therefore phrased through membership, length or
  permutation (or concern lists of at most one element).
* `log.Printf` output is not modelled. The network, the clock and the text
  formatters of the Go library are explicit parameters.
-/

namespace UdsGpt

/-! ## Machine integers and time -/

/-- Reduction of an integer to the range of a Go `int64` (two's complement wrap-around). -/
def wrapInt64 (x : Int) : Int := (x + 2 ^ 63) % 2 ^ 64 - 2 ^ 63

/-- Go `time.Time`, `metav1.Time` and `metav1.MicroTime`: an instant, held as the exact number of
nanoseconds between the Unix epoch and the instant (negative before 1970). -/
structure Time where
  ns : Int
deriving DecidableEq, Repr

/-- The zero `time.Time`: January 1, year 1, 00:00:00 UTC, which lies 62135596800 seconds before
the Unix epoch. -/
def Time.zero : Time := ⟨-62135596800 * 1000000000⟩

/-- Go `Time.IsZero`: whether the instant is January 1, year 1, 00:00:00 UTC. -/
def Time.IsZero (t : Time) : Bool := decide (t.ns = Time.zero.ns)

/-- Go `Time.UnixNano`: `unixSec*1e9 + nsec` computed in `int64`, so the exact count wrapped. -/
def Time.UnixNano (t : Time) : Int := wrapInt64 t.ns

/-- Go `time.Duration`: an `int64` count of nanoseconds. -/
abbrev Duration := Int

/-- Go `time.Second`. -/
def Second : Duration := 1000000000

/-! ## Event records -/

/-- The fields of `v1.ObjectReference` the program reads. -/
structure ObjectReference where
  Kind : String
  Name : String
deriving DecidableEq, Repr

/-- The fields of `v1.Event` the program reads. -/
structure Event where
  Namespace : String
  Name : String
  InvolvedObject : ObjectReference
  Reason : String
  Message : String
  EventTime : Time
  LastTimestamp : Time
deriving DecidableEq, Repr

/-- The coalescing key as the specification words it: the triple
(namespace, involved-object kind, involved-object name). -/
def coalescingKey (e : Event) : String × String × String :=
  (e.Namespace, e.InvolvedObject.Kind, e.InvolvedObject.Name)

/-- The map key computed in `AddOrUpdate`:
`fmt.Sprintf("%s/%s/%s", event.Namespace, event.InvolvedObject.Kind, event.InvolvedObject.Name)`. -/
def storeKey (event : Event) : String :=
  event.Namespace ++ "/" ++ event.InvolvedObject.Kind ++ "/" ++ event.InvolvedObject.Name

/-! ## The Go map and the event store -/

/-- Assignment `m[k] = v` on the bindings of a map: overwrite the binding of `k` when there is
one, add a binding otherwise. -/
def setEntries : List (String × Event) → String → Event → List (String × Event)
  | [], k, v => [(k, v)]
  | (k', v') :: rest, k, v =>
      if k' = k then (k, v) :: rest else (k', v') :: setEntries rest k v

/-- Go `map[string]*v1.Event`: finitely many bindings, at most one per key. -/
structure GoMap where
  entries : List (String × Event)
  nodup : (entries.map Prod.fst).Nodup

/-- Go `make(map[string]*v1.Event)`. -/
def GoMap.make : GoMap := ⟨[], List.nodup_nil⟩

/-- Go `m[k] = v`. -/
def GoMap.set (m : GoMap) (k : String) (v : Event) : GoMap :=
  ⟨setEntries m.entries k v, by
    have keys : ∀ l : List (String × Event), (setEntries l k v).map Prod.fst =
        if k ∈ l.map Prod.fst then l.map Prod.fst else l.map Prod.fst ++ [k] := by
      intro l
      induction l with
      | nil => simp [setEntries]
      | cons p rest ih =>
        obtain ⟨k', v'⟩ := p
        by_cases h : k' = k
        · subst h; simp [setEntries]
        · have h' : ¬ k = k' := fun e => h e.symm
          by_cases hk : k ∈ rest.map Prod.fst
          · simp only [setEntries, h, if_false, List.map_cons, ih, hk, if_true, List.mem_cons,
              or_true]
          · simp only [setEntries, h, if_false, List.map_cons, ih, hk, List.mem_cons, h',
              or_false, List.cons_append]
    rw [keys]
    split
    · exact m.nodup
    · rename_i hk
      exact List.Nodup.append m.nodup (List.nodup_singleton k) (by simpa using hk)⟩

/-- Go `v, ok := m[k]`. -/
def GoMap.get (m : GoMap) (k : String) : Option Event :=
  (m.entries.find? (fun p => p.1 = k)).map Prod.snd

/-- The keys of the map. -/
def GoMap.keys (m : GoMap) : List String := m.entries.map Prod.fst

/-- Go `len(m)`: the number of keys. -/
def GoMap.len (m : GoMap) : Nat := m.entries.length

/-- The values a `for _, v := range m` loop visits, in one admissible order. -/
def GoMap.values (m : GoMap) : List Event := m.entries.map Prod.snd

/-- The `EventStore` struct (the mutex is not modelled: operations are atomic steps). -/
structure EventStore where
  events : GoMap

/-- Source: `NewEventStore`. -/
def NewEventStore : EventStore := ⟨GoMap.make⟩

/-- Source: `(*EventStore).AddOrUpdate`. -/
def EventStore.AddOrUpdate (es : EventStore) (event : Event) : EventStore :=
  let key := storeKey event
  ⟨es.events.set key event⟩

/-- Source: `(*EventStore).GetAndClear`: the collected slice and the store afterwards. -/
def EventStore.GetAndClear (es : EventStore) : List Event × EventStore :=
  let events := es.events.values
  (events, ⟨GoMap.make⟩)

/-- One operation of a client of the store. -/
inductive Op where
  | upsert (event : Event)
  | drain
deriving DecidableEq

/-- A sequence of operations applied in order: the slices returned by the successive
`GetAndClear` calls, and the store at the end. -/
def run : EventStore → List Op → List (List Event) × EventStore
  | es, [] => ([], es)
  | es, Op.upsert e :: ops => run (es.AddOrUpdate e) ops
  | es, Op.drain :: ops =>
      let r := run es.GetAndClear.2 ops
      (es.GetAndClear.1 :: r.1, r.2)

/-- The accounting property of a record `e` upserted after the operations `pre` and followed by
the operations `post`, for a notion `key` of coalescing key: `e` is returned by a later drain, or
is still held at the end, or a later upsert with the same key came before any drain. -/
def Accounted {κ : Type} (key : Event → κ) (pre : List Op) (e : Event) (post : List Op) :
    Prop :=
  (∃ out ∈ (run ((run NewEventStore pre).2.AddOrUpdate e) post).1, e ∈ out) ∨
  e ∈ (run ((run NewEventStore pre).2.AddOrUpdate e) post).2.events.values ∨
  (∃ p₁ e' p₂, post = p₁ ++ Op.upsert e' :: p₂ ∧ Op.drain ∉ p₁ ∧ key e' = key e)

/-! ## The batch pusher -/

/-- Source: `getTimestamp`; `now` is the reading `time.Now()` gives if it is called.
`fmt.Sprintf("%d", n)` of an `int64` is its decimal representation. -/
def getTimestamp (now : Time) (event : Event) : String :=
  let timestamp :=
    if !event.EventTime.IsZero then event.EventTime
    else if !event.LastTimestamp.IsZero then event.LastTimestamp
    else now
  toString timestamp.UnixNano

/-- One element of `streams` in `pushEvents`: the label map under `"stream"` (as its bindings)
and the list under `"values"`. -/
structure Stream where
  stream : List (String × String)
  values : List (List String)
deriving DecidableEq, Repr

/-- The `payload` map of `pushEvents`: its single key `"streams"`. -/
structure Payload where
  streams : List Stream
deriving DecidableEq, Repr

/-- The loop of `pushEvents` that fills `streams`; `i` counts the iterations and `now i` is the
clock reading available to iteration `i`. -/
def buildStreams (now : Nat → Time) : Nat → List Event → List Stream
  | _, [] => []
  | i, event :: rest =>
      { stream := [("job", "kubernetes-events"),
                   ("namespace", event.Namespace),
                   ("name", event.Name),
                   ("kind", event.InvolvedObject.Kind),
                   ("reason", event.Reason)],
        values := [[getTimestamp (now i) event,
                    "Event: " ++ event.Reason ++ ", Message: " ++ event.Message]] }
        :: buildStreams now (i + 1) rest

/-- The payload `pushEvents` marshals and posts. -/
def buildPayload (now : Nat → Time) (events : List Event) : Payload :=
  ⟨buildStreams now 0 events⟩

/-- What lies outside the program during one call of `pushEventsWithRetry`: the clock and the
log store. `now a i` is the clock reading in push attempt `a` at loop iteration `i`;
`post a p` is the answer to the HTTP POST of attempt `a` with payload `p`: a status code, or
`none` for a transport error. -/
structure World where
  now : Nat → Nat → Time
  post : Nat → Payload → Option Nat

/-- The errors `pushEvents` returns (`json.Marshal` cannot fail on this payload). -/
inductive PushError where
  | send
  | status (code : Nat)
deriving DecidableEq, Repr

/-- Go `http.StatusNoContent`. -/
def StatusNoContent : Nat := 204

/-- Source: `pushEvents`, in push attempt number `attempt`. -/
def pushEvents (w : World) (attempt : Nat) (events : List Event) : Except PushError Unit :=
  match w.post attempt (buildPayload (w.now attempt) events) with
  | none => Except.error PushError.send
  | some code =>
      if code ≠ StatusNoContent then Except.error (PushError.status code) else Except.ok ()

/-- What `pushEventsWithRetry` does that can be observed from outside. -/
inductive Action where
  | push (events : List Event)
  | sleep (d : Duration)
deriving DecidableEq, Repr

/-- The `for retries := 0; retries < maxRetries; retries++` loop of `pushEventsWithRetry`, entered
with counter `retries` and `remaining = maxRetries - retries` iterations to go. The delay is
`baseDelay * time.Duration(1<<uint(retries))` in `int64` arithmetic. -/
def retryLoop (w : World) (events : List Event) (baseDelay : Duration) :
    (remaining : Nat) → (retries : Nat) → List Action
  | 0, _ => []
  | remaining + 1, retries =>
      match pushEvents w retries events with
      | Except.ok _ => [Action.push events]
      | Except.error _ =>
          let delay := wrapInt64 (baseDelay * wrapInt64 (2 ^ retries))
          Action.push events :: Action.sleep delay :: retryLoop w events baseDelay remaining
            (retries + 1)

/-- Source: `pushEventsWithRetry`: the pushes and sleeps it performs, and the store afterwards. -/
def pushEventsWithRetry (w : World) (eventStore : EventStore) : List Action × EventStore :=
  let events := eventStore.GetAndClear.1
  let store := eventStore.GetAndClear.2
  if events.length = 0 then ([], store)
  else
    let maxRetries := 5
    let baseDelay := Second
    (retryLoop w events baseDelay maxRetries 0, store)

/-- The push attempts among the actions. -/
def pushesOf : List Action → List (List Event)
  | [] => []
  | Action.push b :: rest => b :: pushesOf rest
  | Action.sleep _ :: rest => pushesOf rest

/-- The delays slept among the actions. -/
def sleepsOf : List Action → List Duration
  | [] => []
  | Action.push _ :: rest => sleepsOf rest
  | Action.sleep d :: rest => d :: sleepsOf rest

/-- Walk along the actions towards push attempt number `i`, remembering in `prev` the delay slept
since the last push, if any. -/
def delayBeforeFrom : Option Duration → List Action → Nat → Option Duration
  | _, [], _ => none
  | prev, Action.push _ :: _, 0 => prev
  | _, Action.push _ :: rest, i + 1 => delayBeforeFrom none rest i
  | _, Action.sleep d :: rest, i => delayBeforeFrom (some d) rest i

/-- The delay slept directly before push attempt number `i` (0-indexed), if any. -/
def delayBefore (actions : List Action) (i : Nat) : Option Duration :=
  delayBeforeFrom none actions i

/-! ## The query tool -/

/-- Go `strings.Index` on character lists: the first position where `sep` occurs in `s`. -/
def Index (s sep : List Char) : Option Nat :=
  if sep.isPrefixOf s then some 0
  else
    match s with
    | [] => none
    | _ :: t => (Index t sep).map (· + 1)

/-- The loop of Go `genSplit` for a non-empty separator: at most `k` cuts. -/
def splitLoop (sep : List Char) : Nat → List Char → List (List Char)
  | 0, s => [s]
  | k + 1, s =>
      match Index s sep with
      | none => [s]
      | some m => s.take m :: splitLoop sep k (s.drop (m + sep.length))

/-- Go `explode`: `s` cut into single characters, at most `n` pieces. -/
def explode : List Char → Nat → List (List Char)
  | [], _ => []
  | _ :: _, 0 => []
  | c :: cs, 1 => [c :: cs]
  | c :: cs, n + 2 => [c] :: explode cs (n + 1)

/-- Go `strings.SplitN(s, sep, n)` for `n ≥ 0`. -/
def SplitN (s sep : String) (n : Nat) : List String :=
  if n = 0 then []
  else if sep.data = [] then (explode s.data n).map String.mk
  else (splitLoop sep.data (min n (s.data.length + 1) - 1) s.data).map String.mk

/-- The formatters of the Go library the query tool prints through: `Time.Format(time.RFC3339)`
(which depends on the local time zone), `%v` of a label map, and `%v` of an error. -/
structure Fmt where
  time : Time → String
  labels : List (String × String) → String
  quote : String → String

/-- Go `labels[k]` on a `map[string]string`: the empty string when `k` is absent. -/
def label (labels : List (String × String)) (k : String) : String :=
  (labels.lookup k).getD ""

/-- Source: `printEvent`: the strings written to standard output, one per `fmt` call. -/
def printEvent (f : Fmt) (timestamp : Time) (message : String) (labels : List (String × String)) :
    List String :=
  [ "Time: " ++ f.time timestamp ++ "\n",
    "Namespace: " ++ label labels "namespace" ++ "\n",
    "Kind: " ++ label labels "kind" ++ "\n",
    "Name: " ++ label labels "name" ++ "\n",
    "Reason: " ++ label labels "reason" ++ "\n",
    match SplitN message "Message: " 2 with
    | [_, m] => "Message: " ++ m ++ "\n"
    | _ => "Message: " ++ message ++ "\n",
    "\n" ]

/-- The two errors of Go `strconv.ParseInt`. -/
inductive NumError where
  | ErrSyntax
  | ErrRange
deriving DecidableEq, Repr

/-- Go `strconv.ParseUint(s, 10, 64)` after the empty-string test: the digit loop, `n` being the
value read so far. A byte that is not a decimal digit is a syntax error (a letter has a digit
value of at least 10, which is not below the base). -/
def parseUintLoop : List Char → Nat → Except NumError Nat
  | [], n => Except.ok n
  | c :: cs, n =>
      if '0'.toNat ≤ c.toNat ∧ c.toNat ≤ '9'.toNat then
        let d := c.toNat - '0'.toNat
        if n ≥ (2 ^ 64 - 1) / 10 + 1 then Except.error NumError.ErrRange
        else
          let n10 := (n * 10) % 2 ^ 64
          let n1 := (n10 + d) % 2 ^ 64
          if n1 < n10 ∨ n1 > 2 ^ 64 - 1 then Except.error NumError.ErrRange
          else parseUintLoop cs n1
      else Except.error NumError.ErrSyntax

/-- Go `strconv.ParseUint(s, 10, 64)`. -/
def ParseUint (s : List Char) : Except NumError Nat :=
  if s = [] then Except.error NumError.ErrSyntax else parseUintLoop s 0

/-- Go `strconv.ParseInt(s, 10, 64)`. A range error of `ParseUint` stays a range error. -/
def ParseInt (s : String) : Except NumError Int :=
  match s.data with
  | [] => Except.error NumError.ErrSyntax
  | c :: cs =>
      let neg := decide (c = '-')
      let rest := if c = '+' ∨ c = '-' then cs else c :: cs
      match ParseUint rest with
      | Except.error e => Except.error e
      | Except.ok un =>
          if !neg && decide (un ≥ 2 ^ 63) then Except.error NumError.ErrRange
          else if neg && decide (un > 2 ^ 63) then Except.error NumError.ErrRange
          else Except.ok (if neg then -(un : Int) else (un : Int))

/-- Source: `parseUnixNano`; `time.Unix(0, nanos)` is the instant `nanos` nanoseconds after the
epoch. -/
def parseUnixNano (ts : String) : Except NumError Time :=
  match ParseInt ts with
  | Except.error e => Except.error e
  | Except.ok nanos => Except.ok ⟨nanos⟩

/-- The text of the error `parseUnixNano` returns. -/
def errorText (f : Fmt) (ts : String) (e : NumError) : String :=
  "error parsing Unix nano timestamp: strconv.ParseInt: parsing " ++ f.quote ts ++ ": " ++
    (match e with
     | NumError.ErrSyntax => "invalid syntax"
     | NumError.ErrRange => "value out of range")

/-- One element of `LokiResponse.Data.Result`. -/
structure Result where
  Stream : List (String × String)
  Values : List (List String)
deriving DecidableEq, Repr

/-- The `Data` field of `LokiResponse`. -/
structure LokiData where
  ResultType : String
  Result : List Result
deriving DecidableEq, Repr

/-- Source: `LokiResponse`. -/
structure LokiResponse where
  Status : String
  Data : LokiData
deriving DecidableEq, Repr

/-- How a run of the query tool's printing ends: normally, or with a Go run-time panic (an index
out of range), in both cases after writing `out` to standard output. -/
inductive Outcome where
  | done (out : List String)
  | aborted (out : List String)
deriving DecidableEq, Repr

/-- Output written before the outcome `o`. -/
def Outcome.after (pre : List String) : Outcome → Outcome
  | Outcome.done out => Outcome.done (pre ++ out)
  | Outcome.aborted out => Outcome.aborted (pre ++ out)

/-- Sequencing: `next` runs only when the first part did not abort. -/
def Outcome.andThen (o : Outcome) (next : Outcome) : Outcome :=
  match o with
  | Outcome.done out => Outcome.after out next
  | Outcome.aborted out => Outcome.aborted out

/-- The inner loop of `printResults`, over `result.Values`. The index expressions `value[0]` and
`value[1]` panic when the slice is too short; the arguments of a call are evaluated before
anything is printed. -/
def printValues (f : Fmt) (isEvent : Bool) (stream : List (String × String)) :
    List (List String) → Outcome
  | [] => Outcome.done []
  | value :: rest =>
      match value[0]? with
      | none => Outcome.aborted []
      | some v0 =>
          match parseUnixNano v0 with
          | Except.error err =>
              Outcome.after ["Error parsing timestamp: " ++ errorText f v0 err ++ "\n"]
                (printValues f isEvent stream rest)
          | Except.ok timestamp =>
              match value[1]? with
              | none => Outcome.aborted []
              | some v1 =>
                  Outcome.after
                    (if isEvent then printEvent f timestamp v1 stream
                     else ["[" ++ f.time timestamp ++ "] " ++ v1 ++ "\n"])
                    (printValues f isEvent stream rest)

/-- The outer loop of `printResults`, over `resp.Data.Result`. -/
def printResultList (f : Fmt) (isEvent : Bool) : List Result → Outcome
  | [] => Outcome.done []
  | result :: rest =>
      Outcome.after ["Stream: " ++ f.labels result.Stream ++ "\n"]
        (Outcome.andThen (printValues f isEvent result.Stream result.Values)
          (Outcome.after ["\n"] (printResultList f isEvent rest)))

/-- Source: `printResults`. -/
def printResults (f : Fmt) (resp : LokiResponse) (isEvent : Bool) : Outcome :=
  printResultList f isEvent resp.Data.Result

/-! ## Vocabulary of the statements, and sample records -/

/-- The three key fields of a record contain no `/` character. -/
def NoSlash (e : Event) : Prop :=
  '/' ∉ e.Namespace.data ∧ '/' ∉ e.InvolvedObject.Kind.data ∧
    '/' ∉ e.InvolvedObject.Name.data

instance NoSlash.decidable (e : Event) : Decidable (NoSlash e) := by
  unfold NoSlash
  exact inferInstance

/-- The string `s` contains `sep` as a substring. -/
def Contains (s sep : String) : Prop := ∃ a b : List Char, s.data = a ++ sep.data ++ b

/-- A record about the pod `default/x`, with its event time set. -/
def podScheduled : Event :=
  { Namespace := "default", Name := "x", InvolvedObject := ⟨"Pod", "x"⟩,
    Reason := "Scheduled", Message := "pod assigned",
    EventTime := ⟨1700000000000000000⟩, LastTimestamp := Time.zero }

/-- A later record about the same pod. -/
def podStarted : Event :=
  { Namespace := "default", Name := "x", InvolvedObject := ⟨"Pod", "x"⟩,
    Reason := "Started", Message := "Started container",
    EventTime := ⟨1700000005000000000⟩, LastTimestamp := Time.zero }

/-- A record about another object of the same namespace. -/
def nodeReady : Event :=
  { Namespace := "default", Name := "y", InvolvedObject := ⟨"Node", "y"⟩,
    Reason := "NodeReady", Message := "ready",
    EventTime := Time.zero, LastTimestamp := ⟨1700000001000000000⟩ }

/-- A record whose involved-object name contains a `/`. -/
def slashInName : Event :=
  { Namespace := "default", Name := "e1", InvolvedObject := ⟨"a", "b/c"⟩,
    Reason := "First", Message := "one",
    EventTime := ⟨1700000000000000000⟩, LastTimestamp := Time.zero }

/-- A record whose involved-object kind contains a `/`. -/
def slashInKind : Event :=
  { Namespace := "default", Name := "e2", InvolvedObject := ⟨"a/b", "c"⟩,
    Reason := "Second", Message := "two",
    EventTime := ⟨1700000000000000000⟩, LastTimestamp := Time.zero }

/-- A world in which every POST fails at the transport level. -/
def deadWorld : World := ⟨fun _ _ => Time.zero, fun _ _ => none⟩

/-- A world in which the first POST is answered 503 and every later one 204. -/
def flakyWorld : World :=
  ⟨fun _ _ => Time.zero, fun a _ => if a = 0 then some 503 else some 204⟩

/-- The retry policy as the specification words it: before push attempt `i` (0-indexed), for
each attempt made, the delay `baseDelay * 2^i` is slept. -/
def DelayBeforeEachAttempt (w : World) (es : EventStore) : Prop :=
  ∀ i, i < (pushesOf (pushEventsWithRetry w es).1).length →
    delayBefore (pushEventsWithRetry w es).1 i = some (Second * 2 ^ i)

/-- A record whose event time lies in the year 3000 (32503680000 seconds after the epoch). -/
def farFuture : Event :=
  { Namespace := "default", Name := "x", InvolvedObject := ⟨"Pod", "x"⟩,
    Reason := "Scheduled", Message := "pod assigned",
    EventTime := ⟨32503680000 * 1000000000⟩, LastTimestamp := Time.zero }

/-- The timestamp selection as the specification words it: the event time if set, else the
last-observed time if set, else the wall clock. -/
def selectedTime (now : Time) (event : Event) : Time :=
  if event.EventTime ≠ Time.zero then event.EventTime
  else if event.LastTimestamp ≠ Time.zero then event.LastTimestamp
  else now

/-- The result of `getTimestamp` as the specification words it: the decimal string of the
nanoseconds since the epoch of the selected time. -/
def ExactNanosString (now : Time) (event : Event) : Prop :=
  getTimestamp now event = toString (selectedTime now event).ns

/-- Formatters for concrete runs: the time as its nanosecond count, a fixed text for a label
map, and plain double quotes around a quoted string. -/
def plainFmt : Fmt := ⟨fun t => toString t.ns, fun _ => "map[]", fun s => "\"" ++ s ++ "\""⟩

/-- A response whose second value entry is the empty list, as the JSON
`{"data":{"result":[{"stream":{...},"values":[["1700000000000000000","..."],[],[...]]}]}}`
decodes. -/
def shortEntryResponse : LokiResponse :=
  { Status := "success",
    Data := { ResultType := "streams",
              Result := [ { Stream := [("job", "kubernetes-events"), ("reason", "Scheduled")],
                            Values := [["1700000000000000000", "Event: A, Message: first"],
                                       [],
                                       ["1700000000000000001", "Event: B, Message: second"]] } ] } }

/-- A response whose only value entry has a timestamp and no line. -/
def oneFieldResponse : LokiResponse :=
  { Status := "success",
    Data := { ResultType := "streams",
              Result := [ { Stream := [], Values := [["1700000000000000000"]] } ] } }

/-- The character is a decimal digit. -/
def IsDigit (c : Char) : Prop := '0'.toNat ≤ c.toNat ∧ c.toNat ≤ '9'.toNat

/-- The number a list of digits denotes when read after the value `n`. -/
def decimalFrom (n : Nat) (digits : List Char) : Nat :=
  digits.foldl (fun n c => 10 * n + (c.toNat - '0'.toNat)) n

/-- A valid base-10 signed 64-bit integer, as the specification words it: an optional sign, at
least one decimal digit and nothing else, with a value `v` between `-2^63` and `2^63 - 1`. -/
def IsDecimalInt64 (s : String) (v : Int) : Prop :=
  ∃ sign digits : List Char, s.data = sign ++ digits ∧
    (sign = [] ∨ sign = ['+'] ∨ sign = ['-']) ∧
    digits ≠ [] ∧ (∀ c ∈ digits, IsDigit c) ∧
    v = (if sign = ['-'] then -(decimalFrom 0 digits : Int) else (decimalFrom 0 digits : Int)) ∧
    -2 ^ 63 ≤ v ∧ v < 2 ^ 63

/-! # Properties -/

/-! ## Lemmas on the map -/

theorem find_setEntries_same (m : List (String × Event)) (k : String) (v : Event) :
    (setEntries m k v).find? (fun p => p.1 = k) = some (k, v) := by
  induction m with
  | nil => simp [setEntries]
  | cons p rest ih =>
    obtain ⟨k', v'⟩ := p
    by_cases h : k' = k
    · simp [setEntries, h]
    · simp [setEntries, h, List.find?_cons, ih]

theorem find_setEntries_other (m : List (String × Event)) (k k' : String) (v : Event)
    (h : k' ≠ k) :
    (setEntries m k v).find? (fun p => p.1 = k') = m.find? (fun p => p.1 = k') := by
  induction m with
  | nil => simp [setEntries, List.find?_cons, h.symm]
  | cons p rest ih =>
    obtain ⟨k₁, v₁⟩ := p
    by_cases h₁ : k₁ = k
    · subst h₁
      have h₂ : ¬ k₁ = k' := fun e => h e.symm
      simp [setEntries, List.find?_cons, h₂]
    · by_cases h₂ : k₁ = k'
      · subst h₂
        simp [setEntries, h₁, List.find?_cons]
      · simp [setEntries, h₁, List.find?_cons, h₂, ih]

theorem GoMap.get_set_same (m : GoMap) (k : String) (v : Event) :
    (m.set k v).get k = some v := by
  simp [GoMap.get, GoMap.set, find_setEntries_same]

theorem GoMap.get_set_other (m : GoMap) (k k' : String) (v : Event) (h : k' ≠ k) :
    (m.set k v).get k' = m.get k' := by
  simp [GoMap.get, GoMap.set, find_setEntries_other _ _ _ _ h]

theorem find_of_mem_nodup (m : List (String × Event)) (h : (m.map Prod.fst).Nodup)
    (k : String) (v : Event) (hm : (k, v) ∈ m) :
    m.find? (fun p => p.1 = k) = some (k, v) := by
  induction m with
  | nil => simp at hm
  | cons p rest ih =>
    obtain ⟨k₁, v₁⟩ := p
    rw [List.map_cons, List.nodup_cons] at h
    rcases List.mem_cons.1 hm with heq | hrest
    · simp [List.find?_cons, ← heq]
    · have hne : ¬ k₁ = k := by
        intro e
        apply h.1
        subst e
        exact List.mem_map.2 ⟨(k₁, v), hrest, rfl⟩
      simp [List.find?_cons, hne, ih h.2 hrest]

/-- The values of a map are exactly the records some key is bound to. -/
theorem GoMap.mem_values_iff (m : GoMap) (e : Event) :
    e ∈ m.values ↔ ∃ k, m.get k = some e := by
  constructor
  · intro h
    obtain ⟨p, hp, rfl⟩ := List.mem_map.1 h
    exact ⟨p.1, by simp [GoMap.get, find_of_mem_nodup m.entries m.nodup p.1 p.2 hp]⟩
  · rintro ⟨k, hk⟩
    unfold GoMap.get at hk
    obtain ⟨p, hp, rfl⟩ := Option.map_eq_some'.1 hk
    exact List.mem_map.2 ⟨p, List.mem_of_find?_eq_some hp, rfl⟩

/-- The values of a map, listed key by key. -/
theorem GoMap.values_eq_filterMap (m : GoMap) : m.values = m.keys.filterMap m.get := by
  obtain ⟨entries, nodup⟩ := m
  simp only [GoMap.values, GoMap.keys, GoMap.get]
  have key : ∀ (l : List (String × Event)), (∀ p ∈ l, p ∈ entries) →
      l.map Prod.snd =
        (l.map Prod.fst).filterMap
          (fun k => (entries.find? (fun p => p.1 = k)).map Prod.snd) := by
    intro l
    induction l with
    | nil => intro _; rfl
    | cons p rest ih =>
      intro hsub
      have hp : p ∈ entries := hsub p (List.mem_cons_self _ _)
      have hf := find_of_mem_nodup entries nodup p.1 p.2 hp
      rw [List.map_cons, List.map_cons, List.filterMap_cons]
      simp only [hf, Option.map_some']
      rw [ih (fun q hq => hsub q (List.mem_cons_of_mem _ hq))]
  exact key entries (fun _ h => h)

theorem EventStore.get_AddOrUpdate_same (es : EventStore) (e : Event) :
    (es.AddOrUpdate e).events.get (storeKey e) = some e := by
  simp [EventStore.AddOrUpdate, GoMap.get_set_same]

theorem EventStore.get_AddOrUpdate_other (es : EventStore) (e : Event) (k : String)
    (h : k ≠ storeKey e) : (es.AddOrUpdate e).events.get k = es.events.get k := by
  simp [EventStore.AddOrUpdate, GoMap.get_set_other _ _ _ _ h]

/-! ## The coalescing store -/

theorem entries_upserts_same_key (k : String) :
    ∀ (l : List Event) (es : EventStore) (v : Event),
      es.events.entries = [(k, v)] → (∀ e ∈ l, storeKey e = k) →
      (l.foldl EventStore.AddOrUpdate es).events.entries =
        [(k, (v :: l).getLast (by simp))] := by
  intro l
  induction l with
  | nil => intro es v h _; simpa using h
  | cons e rest ih =>
    intro es v h hk
    have he : storeKey e = k := hk e (List.mem_cons_self _ _)
    have h1 : (es.AddOrUpdate e).events.entries = [(k, e)] := by
      simp [EventStore.AddOrUpdate, GoMap.set, h, he, setEntries]
    rw [List.foldl_cons, ih (es.AddOrUpdate e) e h1 (fun x hx => hk x (List.mem_cons_of_mem _ hx))]
    simp [List.getLast_cons]

theorem storeKey_eq_of_coalescingKey_eq (a b : Event) (h : coalescingKey a = coalescingKey b) :
    storeKey a = storeKey b := by
  simp only [coalescingKey, Prod.mk.injEq] at h
  simp [storeKey, h.1, h.2.1, h.2.2]

/-- C1. After a non-empty sequence of `AddOrUpdate` calls on an empty store, all with records of
the same coalescing key (namespace, involved-object kind, involved-object name), `GetAndClear`
returns a list of exactly one record: the last one upserted. -/
theorem upserts_same_key_then_drain (records : List Event) (hne : records ≠ [])
    (hkey : ∀ e ∈ records, coalescingKey e = coalescingKey (records.head hne)) :
    ((records.foldl EventStore.AddOrUpdate NewEventStore).GetAndClear).1
      = [records.getLast hne] := by
  cases records with
  | nil => exact absurd rfl hne
  | cons e rest =>
    have h1 : (NewEventStore.AddOrUpdate e).events.entries = [(storeKey e, e)] := by
      simp [EventStore.AddOrUpdate, GoMap.set, NewEventStore, GoMap.make, setEntries]
    have h2 := entries_upserts_same_key (storeKey e) rest (NewEventStore.AddOrUpdate e) e h1
      (fun x hx => storeKey_eq_of_coalescingKey_eq _ _
        (by simpa using hkey x (List.mem_cons_of_mem _ hx)))
    simp only [List.foldl_cons, EventStore.GetAndClear, GoMap.values, h2, List.map_cons,
      List.map_nil]

/-- Witness of C1: two records about the pod `default/x`; the drain returns the second alone. -/
theorem upserts_same_key_then_drain_witness :
    coalescingKey podStarted = coalescingKey podScheduled ∧ podStarted ≠ podScheduled ∧
    (([podScheduled, podStarted].foldl EventStore.AddOrUpdate NewEventStore).GetAndClear).1
      = [podStarted] :=
  ⟨by decide, by decide,
   upserts_same_key_then_drain [podScheduled, podStarted] (by simp) (by decide)⟩

/-- C3. `GetAndClear` returns all the records held: as many as there are keys, one per key
(the keys being pairwise distinct), and exactly the records some key is bound to. It leaves the
store empty, so a directly following `GetAndClear` returns the empty list. On the empty store it
returns the empty list and leaves the store empty. -/
theorem GetAndClear_drains_everything (es : EventStore) :
    es.GetAndClear.1.length = es.events.len ∧
    es.GetAndClear.1 = es.events.keys.filterMap es.events.get ∧
    es.events.keys.Nodup ∧
    (∀ e, e ∈ es.GetAndClear.1 ↔ ∃ k, es.events.get k = some e) ∧
    es.GetAndClear.2.events.entries = [] ∧
    es.GetAndClear.2.GetAndClear.1 = [] ∧
    NewEventStore.GetAndClear.1 = [] ∧
    NewEventStore.GetAndClear.2.events.entries = [] := by
  refine ⟨?_, ?_, es.events.nodup, ?_, rfl, rfl, rfl, rfl⟩
  · simp [EventStore.GetAndClear, GoMap.values, GoMap.len]
  · exact es.events.values_eq_filterMap
  · intro e
    exact es.events.mem_values_iff e

theorem append_slash_cancel (a a' r r' : List Char) (ha : '/' ∉ a) (ha' : '/' ∉ a')
    (h : a ++ '/' :: r = a' ++ '/' :: r') : a = a' ∧ r = r' := by
  induction a generalizing a' with
  | nil =>
    cases a' with
    | nil => simpa using h
    | cons c cs =>
      simp only [List.nil_append, List.cons_append, List.cons.injEq] at h
      exact absurd (h.1 ▸ List.mem_cons_self _ _) ha'
  | cons c cs ih =>
    cases a' with
    | nil =>
      simp only [List.nil_append, List.cons_append, List.cons.injEq] at h
      exact absurd (h.1 ▸ List.mem_cons_self _ _) ha
    | cons c' cs' =>
      simp only [List.cons_append, List.cons.injEq] at h
      obtain ⟨h1, h2⟩ := ih cs' (fun hm => ha (List.mem_cons_of_mem _ hm))
        (fun hm => ha' (List.mem_cons_of_mem _ hm)) h.2
      exact ⟨by rw [h.1, h1], h2⟩

theorem storeKey_data (e : Event) :
    (storeKey e).data =
      e.Namespace.data ++
        '/' :: (e.InvolvedObject.Kind.data ++ '/' :: e.InvolvedObject.Name.data) := by
  simp [storeKey, String.data_append]

theorem storeKey_inj (a b : Event) (ha : NoSlash a) (hb : NoSlash b)
    (h : storeKey a = storeKey b) : coalescingKey a = coalescingKey b := by
  have hd := congrArg String.data h
  rw [storeKey_data, storeKey_data] at hd
  obtain ⟨h1, h2⟩ := append_slash_cancel _ _ _ _ ha.1 hb.1 hd
  obtain ⟨h3, h4⟩ := append_slash_cancel _ _ _ _ ha.2.1 hb.2.1 h2
  simp only [coalescingKey, Prod.mk.injEq]
  exact ⟨String.ext h1, String.ext h3, String.ext h4⟩

/-- C10. For two records whose namespace, involved-object kind and involved-object name contain
no `/`, the string keys built by `AddOrUpdate` are equal exactly when the triples are equal; and
when the triples differ, upserting both into an empty store and draining returns both records
(each once, in some order). -/
theorem storeKey_injective_without_slash (a b : Event) (ha : NoSlash a) (hb : NoSlash b) :
    (storeKey a = storeKey b ↔ coalescingKey a = coalescingKey b) ∧
    (coalescingKey a ≠ coalescingKey b →
      ((NewEventStore.AddOrUpdate a).AddOrUpdate b).GetAndClear.1.Perm [a, b]) := by
  refine ⟨⟨storeKey_inj a b ha hb, storeKey_eq_of_coalescingKey_eq a b⟩, ?_⟩
  intro hne
  have hk : ¬ storeKey a = storeKey b := fun h => hne (storeKey_inj a b ha hb h)
  have : ((NewEventStore.AddOrUpdate a).AddOrUpdate b).GetAndClear.1 = [a, b] := by
    simp [EventStore.GetAndClear, GoMap.values, EventStore.AddOrUpdate, GoMap.set, NewEventStore,
      GoMap.make, setEntries, hk]
  rw [this]

/-- Witness of C10: a pod record and a node record, both free of `/`, have different keys and
are both returned. -/
theorem storeKey_injective_without_slash_witness :
    NoSlash podScheduled ∧ NoSlash nodeReady ∧
    coalescingKey podScheduled ≠ coalescingKey nodeReady ∧
    (storeKey podScheduled = storeKey nodeReady ↔
      coalescingKey podScheduled = coalescingKey nodeReady) ∧
    ((NewEventStore.AddOrUpdate podScheduled).AddOrUpdate nodeReady).GetAndClear.1.Perm
      [podScheduled, nodeReady] :=
  ⟨by decide, by decide, by decide,
    (storeKey_injective_without_slash podScheduled nodeReady (by decide) (by decide)).1,
    (storeKey_injective_without_slash podScheduled nodeReady (by decide) (by decide)).2
      (by decide)⟩

theorem accounted_of_held (e : Event) :
    ∀ (post : List Op) (es : EventStore), es.events.get (storeKey e) = some e →
      (∃ out ∈ (run es post).1, e ∈ out) ∨ e ∈ (run es post).2.events.values ∨
      (∃ p₁ e' p₂, post = p₁ ++ Op.upsert e' :: p₂ ∧ Op.drain ∉ p₁ ∧
        storeKey e' = storeKey e) := by
  intro post
  induction post with
  | nil =>
    intro es h
    exact Or.inr (Or.inl ((es.events.mem_values_iff e).2 ⟨_, h⟩))
  | cons op rest ih =>
    intro es h
    cases op with
    | drain =>
      refine Or.inl ⟨es.GetAndClear.1, ?_, ?_⟩
      · simp [run]
      · exact (es.events.mem_values_iff e).2 ⟨_, h⟩
    | upsert e' =>
      by_cases hk : storeKey e' = storeKey e
      · exact Or.inr (Or.inr ⟨[], e', rest, rfl, by simp, hk⟩)
      · have h' : (es.AddOrUpdate e').events.get (storeKey e) = some e := by
          rw [EventStore.get_AddOrUpdate_other es e' (storeKey e) (fun heq => hk heq.symm)]
          exact h
        rcases ih (es.AddOrUpdate e') h' with h1 | h2 | ⟨p₁, e'', p₂, hp, hd, hkk⟩
        · exact Or.inl h1
        · exact Or.inr (Or.inl h2)
        · refine Or.inr (Or.inr ⟨Op.upsert e' :: p₁, e'', p₂, by simp [hp], ?_, hkk⟩)
          simpa using hd

/-- With the map key that `AddOrUpdate` builds (the string `namespace/kind/name`) as the notion of
key, every upserted record is returned by a later `GetAndClear`, or is still held at the end, or
was overwritten before any drain by a later `AddOrUpdate` of a record with the same map key. -/
theorem every_upsert_accounted_for (pre : List Op) (e : Event) (post : List Op) :
    Accounted storeKey pre e post :=
  accounted_of_held e post _ (EventStore.get_AddOrUpdate_same _ e)

/-- Away from the collision: when the record and the records upserted after it have no `/` in
their namespace, involved-object kind and involved-object name, the record is accounted for with
the triple as the coalescing key. -/
theorem accounted_without_slash (pre : List Op) (e : Event) (post : List Op)
    (he : NoSlash e) (hpost : ∀ e', Op.upsert e' ∈ post → NoSlash e') :
    Accounted coalescingKey pre e post := by
  have h := every_upsert_accounted_for pre e post
  unfold Accounted at h ⊢
  rcases h with h | h | ⟨p₁, e', p₂, hp, hd, hk⟩
  · exact Or.inl h
  · exact Or.inr (Or.inl h)
  · exact Or.inr (Or.inr ⟨p₁, e', p₂, hp, hd,
      storeKey_inj e' e (hpost e' (by rw [hp]; simp)) he hk⟩)

/-- C2, the code at the failing input. Two records with different triples (kind `a`, name `b/c`
against kind `a/b`, name `c`, both in namespace `default`) get the same map key `default/a/b/c`:
after upserting the first and then the second, the drain returns the second alone and the store
is empty. The first record is neither returned, nor held, nor overwritten by a record with its
own triple: it is lost because of a record with a different coalescing key. -/
theorem record_lost_to_other_triple :
    coalescingKey slashInKind ≠ coalescingKey slashInName ∧
    storeKey slashInKind = storeKey slashInName ∧
    (run NewEventStore [Op.upsert slashInName, Op.upsert slashInKind, Op.drain]).1
      = [[slashInKind]] ∧
    (run NewEventStore [Op.upsert slashInName, Op.upsert slashInKind, Op.drain]).2.events.values
      = [] ∧
    ¬ Accounted coalescingKey [] slashInName [Op.upsert slashInKind, Op.drain] := by
  refine ⟨by decide, by decide, by decide, by decide, ?_⟩
  rintro (⟨out, hout, hmem⟩ | hheld | ⟨p₁, e', p₂, hp, -, hk⟩)
  · have h1 : (run ((run NewEventStore []).2.AddOrUpdate slashInName)
        [Op.upsert slashInKind, Op.drain]).1 = [[slashInKind]] := by decide
    rw [h1, List.mem_singleton] at hout
    subst hout
    revert hmem
    decide
  · revert hheld
    decide
  · cases p₁ with
    | nil =>
      simp only [List.nil_append, List.cons.injEq, Op.upsert.injEq] at hp
      rw [← hp.1] at hk
      revert hk
      decide
    | cons o p₁ =>
      cases p₁ with
      | nil => simp at hp
      | cons o' p₁ => simp at hp

/-! ## The retry loop -/

theorem retryLoop_all_fail (w : World) (events : List Event) (baseDelay : Duration) :
    ∀ (remaining retries : Nat),
      (∀ i, i < remaining → pushEvents w (retries + i) events ≠ Except.ok ()) →
      retryLoop w events baseDelay remaining retries =
        ((List.range remaining).map (fun i =>
            [Action.push events,
             Action.sleep (wrapInt64 (baseDelay * wrapInt64 (2 ^ (retries + i))))])).flatten := by
  intro remaining
  induction remaining with
  | zero => intro retries _; simp [retryLoop]
  | succ n ih =>
    intro retries hfail
    have h0 := hfail 0 (Nat.succ_pos n)
    simp only [Nat.add_zero] at h0
    have hrec := ih (retries + 1) (fun i hi => by
        have := hfail (i + 1) (by omega)
        rwa [show retries + (i + 1) = retries + 1 + i by omega] at this)
    rw [retryLoop]
    split
    · rename_i u hu
      exact absurd hu h0
    · rw [hrec, List.range_succ_eq_map]
      simp [Function.comp_def, Nat.add_assoc, Nat.add_comm 1]

theorem retryLoop_first_success (w : World) (events : List Event) (baseDelay : Duration) :
    ∀ (k remaining retries : Nat), k < remaining →
      (∀ i, i < k → pushEvents w (retries + i) events ≠ Except.ok ()) →
      pushEvents w (retries + k) events = Except.ok () →
      retryLoop w events baseDelay remaining retries =
        ((List.range k).map (fun i =>
            [Action.push events,
             Action.sleep (wrapInt64 (baseDelay * wrapInt64 (2 ^ (retries + i))))])).flatten
          ++ [Action.push events] := by
  intro k
  induction k with
  | zero =>
    intro remaining retries hlt _ hok
    obtain ⟨n, rfl⟩ : ∃ n, remaining = n + 1 := ⟨remaining - 1, by omega⟩
    simp only [Nat.add_zero] at hok
    simp [retryLoop, hok]
  | succ k ih =>
    intro remaining retries hlt hfail hok
    obtain ⟨n, rfl⟩ : ∃ n, remaining = n + 1 := ⟨remaining - 1, by omega⟩
    have h0 := hfail 0 (Nat.succ_pos k)
    simp only [Nat.add_zero] at h0
    have hrec := ih n (retries + 1) (by omega)
      (fun i hi => by
        have := hfail (i + 1) (by omega)
        rwa [show retries + (i + 1) = retries + 1 + i by omega] at this)
      (by rwa [show retries + (k + 1) = retries + 1 + k by omega] at hok)
    rw [retryLoop]
    split
    · rename_i u hu
      exact absurd hu h0
    · rw [hrec, List.range_succ_eq_map]
      simp [Function.comp_def, Nat.add_assoc, Nat.add_comm 1]

theorem pushEventsWithRetry_nonempty (w : World) (es : EventStore)
    (hne : es.GetAndClear.1 ≠ []) :
    pushEventsWithRetry w es =
      (retryLoop w es.GetAndClear.1 Second 5 0, es.GetAndClear.2) := by
  have : ¬ es.GetAndClear.1.length = 0 := fun h => hne (List.length_eq_zero.1 h)
  simp [pushEventsWithRetry, this]

/-- C4. When the drained batch is non-empty and every push attempt fails, `pushEventsWithRetry`
makes exactly 5 push attempts, each with the same batch, sleeps 1 s, 2 s, 4 s, 8 s, 16 s in that
order (one delay after each failed attempt, 31 s in total), then gives up: nothing follows the
last sleep, and the store is left empty (the batch is not put back). -/
theorem all_attempts_fail (w : World) (es : EventStore) (hne : es.GetAndClear.1 ≠ [])
    (hfail : ∀ a, a < 5 → pushEvents w a es.GetAndClear.1 ≠ Except.ok ()) :
    (pushEventsWithRetry w es).1 =
      [Action.push es.GetAndClear.1, Action.sleep (1 * Second),
       Action.push es.GetAndClear.1, Action.sleep (2 * Second),
       Action.push es.GetAndClear.1, Action.sleep (4 * Second),
       Action.push es.GetAndClear.1, Action.sleep (8 * Second),
       Action.push es.GetAndClear.1, Action.sleep (16 * Second)] ∧
    pushesOf (pushEventsWithRetry w es).1 = List.replicate 5 es.GetAndClear.1 ∧
    sleepsOf (pushEventsWithRetry w es).1 =
      [1 * Second, 2 * Second, 4 * Second, 8 * Second, 16 * Second] ∧
    (sleepsOf (pushEventsWithRetry w es).1).sum = 31 * Second ∧
    (pushEventsWithRetry w es).2.events.entries = [] := by
  have ht : (pushEventsWithRetry w es).1 =
      [Action.push es.GetAndClear.1, Action.sleep (1 * Second),
       Action.push es.GetAndClear.1, Action.sleep (2 * Second),
       Action.push es.GetAndClear.1, Action.sleep (4 * Second),
       Action.push es.GetAndClear.1, Action.sleep (8 * Second),
       Action.push es.GetAndClear.1, Action.sleep (16 * Second)] := by
    rw [pushEventsWithRetry_nonempty w es hne,
      retryLoop_all_fail w _ Second 5 0 (fun i hi => by simpa using hfail i hi)]
    simp [List.range_succ, wrapInt64, Second]
  refine ⟨ht, ?_, ?_, ?_, ?_⟩
  · rw [ht]; rfl
  · rw [ht]; rfl
  · rw [ht]; simp [sleepsOf, Second]
  · simp [pushEventsWithRetry_nonempty w es hne, EventStore.GetAndClear, GoMap.make]

/-- Witness of C4: one record in the store, every POST fails at the transport level. -/
theorem all_attempts_fail_witness :
    (pushEventsWithRetry deadWorld (NewEventStore.AddOrUpdate podScheduled)).1 =
      [Action.push [podScheduled], Action.sleep 1000000000,
       Action.push [podScheduled], Action.sleep 2000000000,
       Action.push [podScheduled], Action.sleep 4000000000,
       Action.push [podScheduled], Action.sleep 8000000000,
       Action.push [podScheduled], Action.sleep 16000000000] :=
  (all_attempts_fail deadWorld (NewEventStore.AddOrUpdate podScheduled) (by decide)
    (fun a _ => by simp [pushEvents, deadWorld])).1

/-- C5, amended. On a non-empty batch, for every sequence of push outcomes (`k` being the number
of attempts that fail before the first success, or 5 when all five fail),
`pushEventsWithRetry` sleeps `baseDelay * 2^i` after each failed attempt `i` (0-indexed), so that
delay comes before attempt `i + 1` when there is one, and nothing is slept before attempt 0. It
stops at the first successful attempt: if attempt `k < 5` is the first to succeed, exactly
`k + 1` attempts are made and no attempt or delay follows the success. -/
theorem stops_at_first_success (w : World) (es : EventStore) (k : Nat)
    (hne : es.GetAndClear.1 ≠ []) (hk : k ≤ 5)
    (hfail : ∀ i, i < k → pushEvents w i es.GetAndClear.1 ≠ Except.ok ())
    (hok : k < 5 → pushEvents w k es.GetAndClear.1 = Except.ok ()) :
    (pushEventsWithRetry w es).1 =
      ((List.range k).map (fun i =>
          [Action.push es.GetAndClear.1, Action.sleep (Second * 2 ^ i)])).flatten
        ++ (if k < 5 then [Action.push es.GetAndClear.1] else []) ∧
    pushesOf (pushEventsWithRetry w es).1 =
      List.replicate (if k < 5 then k + 1 else 5) es.GetAndClear.1 ∧
    sleepsOf (pushEventsWithRetry w es).1 = (List.range k).map (fun i => Second * 2 ^ i) ∧
    delayBefore (pushEventsWithRetry w es).1 0 = none ∧
    (∀ i, i < k → i + 1 < 5 →
      delayBefore (pushEventsWithRetry w es).1 (i + 1) = some (Second * 2 ^ i)) := by
  have ht : (pushEventsWithRetry w es).1 =
      ((List.range k).map (fun i =>
          [Action.push es.GetAndClear.1, Action.sleep (Second * 2 ^ i)])).flatten
        ++ (if k < 5 then [Action.push es.GetAndClear.1] else []) := by
    rw [pushEventsWithRetry_nonempty w es hne]
    by_cases h5 : k < 5
    · rw [retryLoop_first_success w _ Second k 5 0 h5 (fun i hi => by simpa using hfail i hi)
        (by simpa using hok h5)]
      interval_cases k <;> simp [List.range_succ, wrapInt64, Second]
    · have hk5 : k = 5 := by omega
      subst hk5
      rw [retryLoop_all_fail w _ Second 5 0 (fun i hi => by simpa using hfail i hi)]
      simp [List.range_succ, wrapInt64, Second]
  refine ⟨ht, ?_, ?_, ?_, ?_⟩
  · rw [ht]; interval_cases k <;> rfl
  · rw [ht]; interval_cases k <;> rfl
  · rw [ht]; interval_cases k <;> rfl
  · intro i hi hi5
    rw [ht]
    interval_cases k <;> interval_cases i <;> first | rfl | omega

/-- Witness of C5 amended: the first POST is answered 503, the second 204. -/
theorem stops_at_first_success_witness :
    (pushEventsWithRetry flakyWorld (NewEventStore.AddOrUpdate podScheduled)).1 =
      [Action.push [podScheduled], Action.sleep 1000000000, Action.push [podScheduled]] :=
  (stops_at_first_success flakyWorld (NewEventStore.AddOrUpdate podScheduled) 1 (by decide)
    (by decide) (fun i hi => by
      have : i = 0 := by omega
      subst this
      simp [pushEvents, flakyWorld, StatusNoContent])
    (fun _ => by simp [pushEvents, flakyWorld, StatusNoContent])).1

/-- C5 as stated fails. With a first attempt that fails and a second that succeeds, the actions
are push, sleep 1 s, push: nothing is slept before attempt 0 (the claim says `baseDelay * 2^0`),
and 1 s is slept before attempt 1 (the claim says `baseDelay * 2^1` = 2 s). -/
theorem no_delay_before_first_attempt :
    (pushEventsWithRetry flakyWorld (NewEventStore.AddOrUpdate podScheduled)).1 =
      [Action.push [podScheduled], Action.sleep (1 * Second), Action.push [podScheduled]] ∧
    delayBefore (pushEventsWithRetry flakyWorld (NewEventStore.AddOrUpdate podScheduled)).1 0
      = none ∧
    delayBefore (pushEventsWithRetry flakyWorld (NewEventStore.AddOrUpdate podScheduled)).1 1
      = some (1 * Second) ∧
    ¬ DelayBeforeEachAttempt flakyWorld (NewEventStore.AddOrUpdate podScheduled) := by
  have ht : (pushEventsWithRetry flakyWorld (NewEventStore.AddOrUpdate podScheduled)).1 =
      [Action.push [podScheduled], Action.sleep (1 * Second), Action.push [podScheduled]] := by
    decide
  refine ⟨ht, by rw [ht]; rfl, by rw [ht]; rfl, ?_⟩
  intro h
  have h0 := h 0 (by rw [ht]; decide)
  rw [ht] at h0
  exact absurd h0 (by decide)

/-! ## The payload and the timestamp -/

theorem buildStreams_getElem? (now : Nat → Time) :
    ∀ (events : List Event) (j i : Nat),
      (buildStreams now j events)[i]? =
        (events[i]?).map (fun e =>
          { stream := [("job", "kubernetes-events"), ("namespace", e.Namespace),
                       ("name", e.Name), ("kind", e.InvolvedObject.Kind),
                       ("reason", e.Reason)],
            values := [[getTimestamp (now (j + i)) e,
                        "Event: " ++ e.Reason ++ ", Message: " ++ e.Message]] }) := by
  intro events
  induction events with
  | nil => intro j i; simp [buildStreams]
  | cons e rest ih =>
    intro j i
    cases i with
    | zero => simp [buildStreams]
    | succ i =>
      simp only [buildStreams, List.getElem?_cons_succ, ih]
      rw [show j + 1 + i = j + (i + 1) by omega]

theorem buildStreams_length (now : Nat → Time) :
    ∀ (events : List Event) (j : Nat), (buildStreams now j events).length = events.length := by
  intro events
  induction events with
  | nil => intro j; rfl
  | cons e rest ih => intro j; simp [buildStreams, ih]

/-- C6. The payload built by `pushEvents` has one entry of `streams` per record, in batch order:
the entry at position `i` carries the labels job=`kubernetes-events`, namespace, name, kind
(of the involved object) and reason of record `i`, and exactly one value pair, whose second
component is `"Event: " ++ reason ++ ", Message: " ++ message`. For a one-record batch with
reason `Scheduled`, message `pod assigned`, namespace `default`, kind `Pod`, name `x`, the payload
is one stream with reason `Scheduled` and the value pair
(timestamp, `Event: Scheduled, Message: pod assigned`). -/
theorem payload_one_stream_per_record (now : Nat → Time) (events : List Event) :
    (buildPayload now events).streams.length = events.length ∧
    (∀ (i : Nat) (e : Event), events[i]? = some e →
      (buildPayload now events).streams[i]? = some
        { stream := [("job", "kubernetes-events"), ("namespace", e.Namespace),
                     ("name", e.Name), ("kind", e.InvolvedObject.Kind), ("reason", e.Reason)],
          values := [[getTimestamp (now i) e,
                      "Event: " ++ e.Reason ++ ", Message: " ++ e.Message]] }) ∧
    (∀ e : Event, e.Reason = "Scheduled" → e.Message = "pod assigned" →
      e.Namespace = "default" → e.InvolvedObject.Kind = "Pod" → e.Name = "x" →
      buildPayload now [e] = ⟨[
        { stream := [("job", "kubernetes-events"), ("namespace", "default"), ("name", "x"),
                     ("kind", "Pod"), ("reason", "Scheduled")],
          values := [[getTimestamp (now 0) e,
                      "Event: Scheduled, Message: pod assigned"]] }]⟩) := by
  refine ⟨buildStreams_length now events 0, ?_, ?_⟩
  · intro i e he
    simp [buildPayload, buildStreams_getElem?, he]
  · intro e h1 h2 h3 h4 h5
    simp only [buildPayload, buildStreams, h1, h2, h3, h4, h5]
    rfl

/-- Witness of C6: a batch of two records, and the one-record batch of the claim. -/
theorem payload_one_stream_per_record_witness :
    [podScheduled, nodeReady][1]? = some nodeReady ∧
    (buildPayload (fun _ => Time.zero) [podScheduled, nodeReady]).streams[1]? = some
      { stream := [("job", "kubernetes-events"), ("namespace", "default"), ("name", "y"),
                   ("kind", "Node"), ("reason", "NodeReady")],
        values := [["1700000001000000000", "Event: NodeReady, Message: ready"]] } ∧
    buildPayload (fun _ => Time.zero) [podScheduled] = ⟨[
      { stream := [("job", "kubernetes-events"), ("namespace", "default"), ("name", "x"),
                   ("kind", "Pod"), ("reason", "Scheduled")],
        values := [["1700000000000000000", "Event: Scheduled, Message: pod assigned"]] }]⟩ :=
  ⟨rfl,
   (payload_one_stream_per_record (fun _ => Time.zero) [podScheduled, nodeReady]).2.1 1 nodeReady
     rfl,
   (payload_one_stream_per_record (fun _ => Time.zero) [podScheduled]).2.2 podScheduled
     rfl rfl rfl rfl rfl⟩

theorem wrapInt64_of_range (x : Int) (h1 : -2 ^ 63 ≤ x) (h2 : x < 2 ^ 63) : wrapInt64 x = x := by
  unfold wrapInt64
  rw [Int.emod_eq_of_lt (by omega) (by omega)]
  omega

theorem wrapInt64_range (x : Int) : -2 ^ 63 ≤ wrapInt64 x ∧ wrapInt64 x < 2 ^ 63 := by
  unfold wrapInt64
  have h1 := Int.emod_nonneg (x + 2 ^ 63) (show (2 : Int) ^ 64 ≠ 0 by norm_num)
  have h2 := Int.emod_lt_of_pos (x + 2 ^ 63) (show (0 : Int) < 2 ^ 64 by norm_num)
  constructor <;> omega

/-- C7, amended. `getTimestamp` returns the decimal string of `UnixNano()` of the record's
`EventTime` when that is set (whatever `LastTimestamp` is), otherwise of `LastTimestamp` when
that is set, and of the wall clock only when both are unset. `UnixNano()` is the number of
nanoseconds since the epoch whenever that number fits a signed 64-bit integer. Whenever
`EventTime` or `LastTimestamp` is set the result does not depend on the clock. -/
theorem getTimestamp_selection (now : Time) (event : Event) :
    (event.EventTime ≠ Time.zero →
      getTimestamp now event = toString event.EventTime.UnixNano) ∧
    (event.EventTime = Time.zero → event.LastTimestamp ≠ Time.zero →
      getTimestamp now event = toString event.LastTimestamp.UnixNano) ∧
    (event.EventTime = Time.zero → event.LastTimestamp = Time.zero →
      getTimestamp now event = toString now.UnixNano) ∧
    (∀ t : Time, -2 ^ 63 ≤ t.ns → t.ns < 2 ^ 63 → t.UnixNano = t.ns) ∧
    (event.EventTime ≠ Time.zero ∨ event.LastTimestamp ≠ Time.zero →
      ∀ now' : Time, getTimestamp now' event = getTimestamp now event) := by
  have hz : ∀ t : Time, t.IsZero = true ↔ t = Time.zero := by
    intro t
    cases t
    simp [Time.IsZero, Time.zero]
  have hz' : ∀ t : Time, t ≠ Time.zero → t.IsZero = false := by
    intro t ht
    cases h : t.IsZero
    · rfl
    · exact absurd ((hz t).1 h) ht
  refine ⟨?_, ?_, ?_, ?_, ?_⟩
  · intro h
    simp [getTimestamp, hz' _ h]
  · intro h1 h2
    simp [getTimestamp, (hz _).2 h1, hz' _ h2]
  · intro h1 h2
    simp [getTimestamp, (hz _).2 h1, (hz _).2 h2]
  · intro t h1 h2
    exact wrapInt64_of_range t.ns h1 h2
  · intro h now'
    by_cases h1 : event.EventTime = Time.zero
    · have h2 : event.LastTimestamp ≠ Time.zero := by
        rcases h with h | h
        · exact absurd h1 h
        · exact h
      simp [getTimestamp, (hz _).2 h1, hz' _ h2]
    · simp [getTimestamp, hz' _ h1]

/-- Witness of C7 amended: a record with its event time set, and one with only its last
timestamp set. -/
theorem getTimestamp_selection_witness :
    getTimestamp Time.zero podScheduled = "1700000000000000000" ∧
    getTimestamp Time.zero nodeReady = "1700000001000000000" :=
  ⟨(getTimestamp_selection Time.zero podScheduled).1 (by decide),
   (getTimestamp_selection Time.zero nodeReady).2.1 (by decide) (by decide)⟩

/-- C7 as stated fails. For a record whose event time is 3000-01-01T00:00:00Z, which is
32503680000000000000 ns after the epoch, more than an `int64` holds, `getTimestamp` returns
`-4389808147419103232` and not the decimal string of the nanoseconds since the epoch. -/
theorem getTimestamp_wraps_out_of_range :
    farFuture.EventTime ≠ Time.zero ∧
    toString farFuture.EventTime.ns = "32503680000000000000" ∧
    getTimestamp Time.zero farFuture = "-4389808147419103232" ∧
    ¬ ExactNanosString Time.zero farFuture := by
  refine ⟨by decide, by decide, by decide, ?_⟩
  unfold ExactNanosString
  decide

/-! ## The line format and `printEvent` -/

theorem Index_eq_none (sep : List Char) :
    ∀ s : List Char, (∀ a b, s ≠ a ++ sep ++ b) → Index s sep = none := by
  intro s
  induction s with
  | nil =>
    intro h
    unfold Index
    have : ¬ sep <+: [] := fun ⟨t, ht⟩ => h [] t (by simp [ht])
    simp [List.isPrefixOf_iff_prefix, this]
  | cons c s ih =>
    intro h
    unfold Index
    have hp : ¬ sep <+: c :: s := fun ⟨t, ht⟩ => h [] t (by simp [ht])
    have hs : ∀ a b, s ≠ a ++ sep ++ b := fun a b e => h (c :: a) b (by simp [e])
    simp only [List.isPrefixOf_iff_prefix, hp, if_false, ih hs, Option.map_none']

theorem Index_eq_length (sep b : List Char) :
    ∀ a : List Char,
      (∀ a₁ a₂, a = a₁ ++ a₂ → a₂ ≠ [] → ¬ sep <+: a₂ ++ (sep ++ b)) →
      Index (a ++ (sep ++ b)) sep = some a.length := by
  intro a
  induction a with
  | nil =>
    intro _
    unfold Index
    have : sep <+: [] ++ (sep ++ b) := ⟨b, by simp⟩
    simp [List.isPrefixOf_iff_prefix, this]
  | cons c a ih =>
    intro h
    have hp : ¬ sep <+: c :: (a ++ (sep ++ b)) := h [] (c :: a) rfl (by simp)
    have hrec := ih (fun a₁ a₂ e hne => h (c :: a₁) a₂ (by simp [e]) hne)
    unfold Index
    simp only [List.isPrefixOf_iff_prefix, hp, if_false, List.cons_append, hrec, Option.map_some',
      List.length_cons]

/-- A list whose head is not the head of the separator does not start with the separator. -/
theorem not_prefix_of_head_ne (m : Char) (sep' l : List Char) (c : Char) (hc : c ≠ m) :
    ¬ (m :: sep') <+: c :: l := by
  rintro ⟨t, ht⟩
  simp only [List.cons_append, List.cons.injEq] at ht
  exact hc ht.1.symm

theorem no_occurrence_from_reason (r b a' a₂ : List Char)
    (hr : ∀ x y, r ≠ x ++ "Message: ".data ++ y)
    (h2 : r ++ ", ".data = a' ++ a₂) (hne : a₂ ≠ [])
    (hpre : "Message: ".data <+: a₂ ++ ("Message: ".data ++ b)) : False := by
  obtain ⟨c, a₂', rfl⟩ : ∃ c a₂', a₂ = c :: a₂' := by
    cases a₂ with
    | nil => exact absurd rfl hne
    | cons c a₂' => exact ⟨c, a₂', rfl⟩
  have hc : c = 'M' := by
    by_contra hcm
    exact not_prefix_of_head_ne 'M' "essage: ".data _ c hcm hpre
  subst hc
  rcases List.append_eq_append_iff.1 h2 with ⟨x, -, h4⟩ | ⟨x, h3, h4⟩
  · -- the occurrence would start inside `", "`
    have : 'M' ∈ ", ".data := by rw [h4]; simp
    revert this; decide
  · -- the occurrence starts inside `r`
    rw [h4, List.append_assoc] at hpre
    obtain ⟨t, ht⟩ := hpre
    rcases List.append_eq_append_iff.1 ht with ⟨z, h5, h6⟩ | ⟨z, h5, h6⟩
    · -- `x = "Message: " ++ z`: the reason contains the separator
      exact hr a' z (by rw [h3, h5, List.append_assoc])
    · -- `"Message: " = x ++ z` and `z` starts where `", "` starts
      cases z with
      | nil =>
        rw [List.append_nil] at h5
        exact hr a' [] (by rw [h3, h5, List.append_nil])
      | cons d z =>
        simp only [List.cons_append, String.data_append] at h6
        have hd : d = ',' := by
          have := h6
          simp only [show ", ".data = [',', ' '] from rfl, List.cons_append,
            List.cons.injEq] at this
          exact this.1.symm
        have : ',' ∈ "Message: ".data := by rw [h5, hd]; simp
        revert this; decide

theorem no_early_occurrence (r b : List Char)
    (hr : ∀ x y, r ≠ x ++ "Message: ".data ++ y) :
    ∀ a₁ a₂, "Event: ".data ++ r ++ ", ".data = a₁ ++ a₂ → a₂ ≠ [] →
      ¬ "Message: ".data <+: a₂ ++ ("Message: ".data ++ b) := by
  intro a₁ a₂ h hne hpre
  rw [List.append_assoc] at h
  rcases List.append_eq_append_iff.1 h with ⟨a', -, h2⟩ | ⟨c', h1, h2⟩
  · exact no_occurrence_from_reason r b a' a₂ hr h2 hne hpre
  · cases c' with
    | nil => exact no_occurrence_from_reason r b [] a₂ hr (by simpa using h2.symm) hne hpre
    | cons d c' =>
      rw [h2] at hpre
      have hd : d = 'M' := by
        by_contra hdm
        exact not_prefix_of_head_ne 'M' "essage: ".data _ d hdm hpre
      have : 'M' ∈ "Event: ".data := by rw [h1, hd]; simp
      revert this; decide


theorem Index_ne_none_of_occurrence (sep : List Char) :
    ∀ (a b : List Char), Index (a ++ sep ++ b) sep ≠ none := by
  intro a
  induction a with
  | nil =>
    intro b
    unfold Index
    have : sep <+: [] ++ sep ++ b := ⟨b, by simp⟩
    simp [List.isPrefixOf_iff_prefix, this]
  | cons c a ih =>
    intro b
    unfold Index
    split
    · simp
    · simpa using ih b

theorem not_contains_of_Index (s sep : String) (h : Index s.data sep.data = none) :
    ¬ Contains s sep := by
  rintro ⟨a, b, hab⟩
  rw [hab] at h
  exact Index_ne_none_of_occurrence sep.data a b h

theorem splitLoop_one_of_index (sep s : List Char) (m : Nat) (h : Index s sep = some m) :
    splitLoop sep 1 s = [s.take m, s.drop (m + sep.length)] := by
  simp [splitLoop, h]

theorem splitLoop_of_no_index (sep s : List Char) (k : Nat) (h : Index s sep = none) :
    splitLoop sep k s = [s] := by
  cases k with
  | zero => rfl
  | succ k => simp [splitLoop, h]

theorem SplitN_two_of_first (a b : List Char)
    (hfirst : ∀ a₁ a₂, a = a₁ ++ a₂ → a₂ ≠ [] →
      ¬ "Message: ".data <+: a₂ ++ ("Message: ".data ++ b)) :
    SplitN (String.mk (a ++ ("Message: ".data ++ b))) "Message: " 2
      = [String.mk a, String.mk b] := by
  have hidx := Index_eq_length "Message: ".data b a hfirst
  have hlen : min 2 ((a ++ ("Message: ".data ++ b)).length + 1) - 1 = 1 := by
    have : 1 ≤ (a ++ ("Message: ".data ++ b)).length := by
      simp only [List.length_append, show "Message: ".data.length = 9 from rfl]
      omega
    omega
  have hsep : ¬ "Message: ".data = [] := by decide
  simp only [SplitN, show ¬ (2 = 0) by decide, if_false, hsep, hlen,
    splitLoop_one_of_index _ _ _ hidx, List.map_cons, List.map_nil]
  have h9 : "Message: ".data.length = 9 := rfl
  have htake : List.take a.length (a ++ ("Message: ".data ++ b)) = a := by simp
  have hdrop : List.drop (a.length + "Message: ".data.length)
      (a ++ ("Message: ".data ++ b)) = b := by
    rw [← List.drop_drop, List.drop_left, List.drop_left]
  rw [htake, hdrop]

theorem SplitN_two_of_absent (line : String) (h : ¬ Contains line "Message: ") :
    SplitN line "Message: " 2 = [line] := by
  have hidx : Index line.data "Message: ".data = none :=
    Index_eq_none _ _ (fun a b e => h ⟨a, b, e⟩)
  have hsep : ¬ "Message: ".data = [] := by decide
  simp only [SplitN, show ¬ (2 = 0) by decide, if_false, hsep,
    splitLoop_of_no_index _ _ _ hidx, List.map_cons, List.map_nil]

/-- C8. For a reason that does not contain `Message: ` and any message (also one that contains
`Message: `), `SplitN` with limit 2 cuts the line `"Event: " ++ reason ++ ", Message: " ++ message`
at the separator the pusher wrote, and the message `printEvent` prints is exactly `message`; for
a line that does not contain `Message: `, `printEvent` prints the whole line as the message; and
the line `Event: Scheduled, Message: pod assigned` yields `pod assigned`. -/
theorem printEvent_recovers_message (f : Fmt) (timestamp : Time)
    (labels : List (String × String)) (reason message line : String)
    (hreason : ¬ Contains reason "Message: ") (hline : ¬ Contains line "Message: ") :
    SplitN ("Event: " ++ reason ++ ", Message: " ++ message) "Message: " 2
      = ["Event: " ++ reason ++ ", ", message] ∧
    printEvent f timestamp ("Event: " ++ reason ++ ", Message: " ++ message) labels =
      [ "Time: " ++ f.time timestamp ++ "\n",
        "Namespace: " ++ label labels "namespace" ++ "\n",
        "Kind: " ++ label labels "kind" ++ "\n",
        "Name: " ++ label labels "name" ++ "\n",
        "Reason: " ++ label labels "reason" ++ "\n",
        "Message: " ++ message ++ "\n",
        "\n" ] ∧
    printEvent f timestamp line labels =
      [ "Time: " ++ f.time timestamp ++ "\n",
        "Namespace: " ++ label labels "namespace" ++ "\n",
        "Kind: " ++ label labels "kind" ++ "\n",
        "Name: " ++ label labels "name" ++ "\n",
        "Reason: " ++ label labels "reason" ++ "\n",
        "Message: " ++ line ++ "\n",
        "\n" ] ∧
    printEvent f timestamp "Event: Scheduled, Message: pod assigned" labels =
      [ "Time: " ++ f.time timestamp ++ "\n",
        "Namespace: " ++ label labels "namespace" ++ "\n",
        "Kind: " ++ label labels "kind" ++ "\n",
        "Name: " ++ label labels "name" ++ "\n",
        "Reason: " ++ label labels "reason" ++ "\n",
        "Message: pod assigned\n",
        "\n" ] := by
  have hsplit : SplitN ("Event: " ++ reason ++ ", Message: " ++ message) "Message: " 2
      = ["Event: " ++ reason ++ ", ", message] := by
    have hfirst := no_early_occurrence reason.data message.data
      (fun x y e => hreason ⟨x, y, e⟩)
    have h := SplitN_two_of_first ("Event: ".data ++ reason.data ++ ", ".data) message.data hfirst
    have e1 : ("Event: " ++ reason ++ ", Message: " ++ message : String)
        = String.mk ("Event: ".data ++ reason.data ++ ", ".data ++
            ("Message: ".data ++ message.data)) := by
      apply String.ext
      simp [String.data_append]
    have e2 : ("Event: " ++ reason ++ ", " : String)
        = String.mk ("Event: ".data ++ reason.data ++ ", ".data) := by
      apply String.ext
      simp [String.data_append]
    rw [e1, h, ← e2]
  refine ⟨hsplit, ?_, ?_, ?_⟩
  · simp only [printEvent, hsplit]
  · simp only [printEvent, SplitN_two_of_absent line hline]
  · have : SplitN "Event: Scheduled, Message: pod assigned" "Message: " 2
        = ["Event: Scheduled, ", "pod assigned"] := by decide
    simp only [printEvent, this]
    rfl

/-- Witness of C8: a message that itself contains `Message: `, and a plain log line. -/
theorem printEvent_recovers_message_witness :
    ¬ Contains "Scheduled" "Message: " ∧ ¬ Contains "level=info msg=started" "Message: " ∧
    SplitN "Event: Scheduled, Message: see Message: below" "Message: " 2
      = ["Event: Scheduled, ", "see Message: below"] ∧
    printEvent plainFmt ⟨5⟩ "Event: Scheduled, Message: see Message: below" [("kind", "Pod")] =
      [ "Time: 5\n", "Namespace: \n", "Kind: Pod\n", "Name: \n", "Reason: \n",
        "Message: see Message: below\n", "\n" ] ∧
    printEvent plainFmt ⟨5⟩ "level=info msg=started" [("kind", "Pod")] =
      [ "Time: 5\n", "Namespace: \n", "Kind: Pod\n", "Name: \n", "Reason: \n",
        "Message: level=info msg=started\n", "\n" ] :=
  ⟨not_contains_of_Index _ _ (by decide), not_contains_of_Index _ _ (by decide),
   (printEvent_recovers_message plainFmt ⟨5⟩ [("kind", "Pod")] "Scheduled" "see Message: below"
      "level=info msg=started" (not_contains_of_Index _ _ (by decide))
      (not_contains_of_Index _ _ (by decide))).1,
   (printEvent_recovers_message plainFmt ⟨5⟩ [("kind", "Pod")] "Scheduled" "see Message: below"
      "level=info msg=started" (not_contains_of_Index _ _ (by decide))
      (not_contains_of_Index _ _ (by decide))).2.1,
   (printEvent_recovers_message plainFmt ⟨5⟩ [("kind", "Pod")] "Scheduled" "see Message: below"
      "level=info msg=started" (not_contains_of_Index _ _ (by decide))
      (not_contains_of_Index _ _ (by decide))).2.2.1⟩

/-! ## `printResults` -/

/-- C9, the code at the failing inputs. A value entry with fewer than two elements makes
`printResults` abort with an index-out-of-range panic: with an empty second entry the first entry
is printed and the third never is; with a one-element entry nothing but the stream header is
printed. The entry is neither reported nor skipped. -/
theorem printResults_aborts_on_short_entry :
    printResults plainFmt shortEntryResponse true = Outcome.aborted
      [ "Stream: map[]\n", "Time: 1700000000000000000\n", "Namespace: \n", "Kind: \n",
        "Name: \n", "Reason: Scheduled\n", "Message: first\n", "\n" ] ∧
    printResults plainFmt oneFieldResponse false = Outcome.aborted ["Stream: map[]\n"] ∧
    (∀ (f : Fmt) (isEvent : Bool), ∃ out,
      printResults f shortEntryResponse isEvent = Outcome.aborted out) ∧
    (∀ (f : Fmt) (isEvent : Bool), ∃ out,
      printResults f oneFieldResponse isEvent = Outcome.aborted out) := by
  have hts : parseUnixNano "1700000000000000000" = Except.ok ⟨1700000000000000000⟩ := by rfl
  refine ⟨by decide, by decide, ?_, ?_⟩
  · intro f isEvent
    simp [printResults, printResultList, shortEntryResponse, printValues, hts, Outcome.after,
      Outcome.andThen]
  · intro f isEvent
    simp [printResults, printResultList, oneFieldResponse, printValues, hts, Outcome.after,
      Outcome.andThen]

/-- When every value entry has at least two elements, `printResults` runs to completion. -/
theorem printValues_done (f : Fmt) (isEvent : Bool) (stream : List (String × String)) :
    ∀ values : List (List String), (∀ v ∈ values, 2 ≤ v.length) →
      ∃ out, printValues f isEvent stream values = Outcome.done out := by
  intro values
  induction values with
  | nil => intro _; exact ⟨[], rfl⟩
  | cons v rest ih =>
    intro h
    obtain ⟨out, hout⟩ := ih (fun x hx => h x (List.mem_cons_of_mem _ hx))
    have hv := h v (List.mem_cons_self _ _)
    obtain ⟨v0, v1, tl, rfl⟩ : ∃ v0 v1 tl, v = v0 :: v1 :: tl := by
      match v, hv with
      | v0 :: v1 :: tl, _ => exact ⟨v0, v1, tl, rfl⟩
    cases hp : parseUnixNano v0 with
    | error e =>
      exact ⟨("Error parsing timestamp: " ++ errorText f v0 e ++ "\n") :: out,
        by simp [printValues, hp, hout, Outcome.after]⟩
    | ok t =>
      exact ⟨(if isEvent then printEvent f t v1 stream
              else ["[" ++ f.time t ++ "] " ++ v1 ++ "\n"]) ++ out,
        by simp [printValues, hp, hout, Outcome.after]⟩

theorem printResults_done (f : Fmt) (isEvent : Bool) (resp : LokiResponse)
    (h : ∀ r ∈ resp.Data.Result, ∀ v ∈ r.Values, 2 ≤ v.length) :
    ∃ out, printResults f resp isEvent = Outcome.done out := by
  unfold printResults
  generalize resp.Data.Result = results at h
  induction results with
  | nil => exact ⟨[], rfl⟩
  | cons r rest ih =>
    obtain ⟨out, hout⟩ := ih (fun x hx => h x (List.mem_cons_of_mem _ hx))
    obtain ⟨o1, ho1⟩ := printValues_done f isEvent r.Stream r.Values
      (h r (List.mem_cons_self _ _))
    exact ⟨("Stream: " ++ f.labels r.Stream ++ "\n") :: (o1 ++ "\n" :: out),
      by simp [printResultList, ho1, hout, Outcome.after, Outcome.andThen]⟩

/-! ## `parseUnixNano` -/

theorem decimalFrom_ge (digits : List Char) : ∀ n, n ≤ decimalFrom n digits := by
  induction digits with
  | nil => intro n; exact Nat.le_refl n
  | cons c cs ih =>
    intro n
    have := ih (10 * n + (c.toNat - '0'.toNat))
    simp only [decimalFrom, List.foldl_cons] at this ⊢
    omega

theorem parseUintLoop_ok_iff (cs : List Char) :
    ∀ (n m : Nat), n < 2 ^ 64 →
      (parseUintLoop cs n = Except.ok m ↔
        (∀ c ∈ cs, IsDigit c) ∧ decimalFrom n cs = m ∧ m < 2 ^ 64) := by
  induction cs with
  | nil =>
    intro n m hn
    simp only [parseUintLoop, Except.ok.injEq, List.not_mem_nil, false_implies, implies_true,
      true_and, decimalFrom, List.foldl_nil]
    constructor
    · intro h; exact ⟨h, h ▸ hn⟩
    · intro h; exact h.1
  | cons c cs ih =>
    intro n m hn
    have hge := decimalFrom_ge cs (10 * n + (c.toNat - '0'.toNat))
    have hstep : decimalFrom n (c :: cs) = decimalFrom (10 * n + (c.toNat - '0'.toNat)) cs := rfl
    by_cases hd : '0'.toNat ≤ c.toNat ∧ c.toNat ≤ '9'.toNat
    · have h0 : '0'.toNat = 48 := rfl
      have h9 : '9'.toNat = 57 := rfl
      by_cases hcut : n ≥ (2 ^ 64 - 1) / 10 + 1
      · have hfalse : ¬ decimalFrom n (c :: cs) < 2 ^ 64 := by
          rw [hstep]; omega
        simp only [parseUintLoop, hd, and_self, if_true, hcut, List.mem_cons, forall_eq_or_imp]
        constructor
        · intro h; cases h
        · rintro ⟨-, h1, h2⟩; exact absurd (h1 ▸ h2) hfalse
      · have h10 : (n * 10) % 2 ^ 64 = n * 10 := Nat.mod_eq_of_lt (by omega)
        by_cases hov : n * 10 + (c.toNat - '0'.toNat) < 2 ^ 64
        · have h1 : (n * 10 + (c.toNat - '0'.toNat)) % 2 ^ 64 = n * 10 + (c.toNat - '0'.toNat) :=
            Nat.mod_eq_of_lt hov
          have hno : ¬ (n * 10 + (c.toNat - '0'.toNat) < n * 10 ∨
              n * 10 + (c.toNat - '0'.toNat) > 2 ^ 64 - 1) := by omega
          simp only [parseUintLoop, hd, and_self, if_true, hcut, if_false, h10, h1, hno,
            List.mem_cons, forall_eq_or_imp]
          rw [ih _ m hov, hstep, Nat.mul_comm n 10]
          constructor
          · rintro ⟨a, b, c⟩; exact ⟨⟨hd, a⟩, b, c⟩
          · rintro ⟨⟨-, a⟩, b, c⟩; exact ⟨a, b, c⟩
        · have hwrap : (n * 10 + (c.toNat - '0'.toNat)) % 2 ^ 64
              = n * 10 + (c.toNat - '0'.toNat) - 2 ^ 64 := by
            rw [Nat.mod_eq_sub_mod (by omega), Nat.mod_eq_of_lt (by omega)]
          have hyes : (n * 10 + (c.toNat - '0'.toNat) - 2 ^ 64 < n * 10 ∨
              n * 10 + (c.toNat - '0'.toNat) - 2 ^ 64 > 2 ^ 64 - 1) := by
            left; omega
          have hfalse : ¬ decimalFrom n (c :: cs) < 2 ^ 64 := by
            rw [hstep]; omega
          simp only [parseUintLoop, hd, and_self, if_true, hcut, if_false, h10, hwrap, hyes,
            List.mem_cons, forall_eq_or_imp]
          constructor
          · intro h; cases h
          · rintro ⟨-, h1, h2⟩; exact absurd (h1 ▸ h2) hfalse
    · simp only [parseUintLoop, hd, if_false, List.mem_cons, forall_eq_or_imp, IsDigit]
      constructor
      · intro h; cases h
      · rintro ⟨⟨h, -⟩, -⟩; exact h.elim


theorem ParseUint_ok_iff (s : List Char) (m : Nat) :
    ParseUint s = Except.ok m ↔
      s ≠ [] ∧ (∀ c ∈ s, IsDigit c) ∧ decimalFrom 0 s = m ∧ m < 2 ^ 64 := by
  unfold ParseUint
  by_cases hs : s = []
  · simp [hs]
  · simp only [hs, if_false, ne_eq, not_false_eq_true, true_and]
    exact parseUintLoop_ok_iff s 0 m (by norm_num)

theorem not_isDigit_plus : ¬ IsDigit '+' := by unfold IsDigit; decide
theorem not_isDigit_minus : ¬ IsDigit '-' := by unfold IsDigit; decide

/-- The ways to read `c :: cs` as a sign followed by digits. -/
theorem sign_digits_cases (c : Char) (cs sign digits : List Char)
    (h : c :: cs = sign ++ digits)
    (hsign : sign = [] ∨ sign = ['+'] ∨ sign = ['-'])
    (hdig : ∀ d ∈ digits, IsDigit d) :
    (c = '+' ∧ sign = ['+'] ∧ digits = cs) ∨ (c = '-' ∧ sign = ['-'] ∧ digits = cs) ∨
    (c ≠ '+' ∧ c ≠ '-' ∧ sign = [] ∧ digits = c :: cs) := by
  rcases hsign with rfl | rfl | rfl
  · simp only [List.nil_append] at h
    subst h
    have hc := hdig c (List.mem_cons_self _ _)
    refine Or.inr (Or.inr ⟨?_, ?_, rfl, rfl⟩)
    · rintro rfl; exact not_isDigit_plus hc
    · rintro rfl; exact not_isDigit_minus hc
  · simp only [List.singleton_append, List.cons.injEq] at h
    exact Or.inl ⟨h.1, rfl, h.2.symm⟩
  · simp only [List.singleton_append, List.cons.injEq] at h
    exact Or.inr (Or.inl ⟨h.1, rfl, h.2.symm⟩)

/-- What `ParseInt` hands to `ParseUint`: the string without its sign. -/
theorem isDecimalInt64_cons (s : String) (v : Int) (c : Char) (cs : List Char)
    (hs : s.data = c :: cs) :
    IsDecimalInt64 s v ↔
      ((if c = '+' ∨ c = '-' then cs else c :: cs) ≠ [] ∧
       (∀ d ∈ (if c = '+' ∨ c = '-' then cs else c :: cs), IsDigit d) ∧
       v = (if c = '-'
            then -(decimalFrom 0 (if c = '+' ∨ c = '-' then cs else c :: cs) : Int)
            else (decimalFrom 0 (if c = '+' ∨ c = '-' then cs else c :: cs) : Int)) ∧
       -2 ^ 63 ≤ v ∧ v < 2 ^ 63) := by
  unfold IsDecimalInt64
  rw [hs]
  constructor
  · rintro ⟨sign, digits, h, hsign, hne, hdig, hv, hlo, hhi⟩
    rcases sign_digits_cases _ _ _ _ h hsign hdig with
      ⟨rfl, rfl, rfl⟩ | ⟨rfl, rfl, rfl⟩ | ⟨h1, h2, rfl, rfl⟩
    · have e1 : ¬ ('+' = '-') := by decide
      have e2 : ¬ (['+'] = ['-']) := by decide
      simp only [true_or, if_true, e1, if_false, e2] at hv ⊢
      exact ⟨hne, hdig, hv, hlo, hhi⟩
    · simp only [or_true, if_true] at hv ⊢
      exact ⟨hne, hdig, hv, hlo, hhi⟩
    · have e2 : ¬ (([] : List Char) = ['-']) := by decide
      simp only [h1, h2, or_self, if_false, e2] at hv ⊢
      exact ⟨hne, hdig, hv, hlo, hhi⟩
  · rintro ⟨hne, hdig, hv, hlo, hhi⟩
    by_cases h1 : c = '+'
    · subst h1
      have e1 : ¬ ('+' = '-') := by decide
      have e2 : ¬ (['+'] = ['-']) := by decide
      simp only [true_or, if_true, e1, if_false] at hne hdig hv
      exact ⟨['+'], cs, rfl, Or.inr (Or.inl rfl), hne, hdig,
        by simpa only [e2, if_false] using hv, hlo, hhi⟩
    · by_cases h2 : c = '-'
      · subst h2
        simp only [or_true, if_true] at hne hdig hv
        exact ⟨['-'], cs, rfl, Or.inr (Or.inr rfl), hne, hdig, by simpa using hv, hlo, hhi⟩
      · have e2 : ¬ (([] : List Char) = ['-']) := by decide
        simp only [h1, h2, or_self, if_false] at hne hdig hv
        exact ⟨[], c :: cs, rfl, Or.inl rfl, hne, hdig, by simpa only [e2, if_false] using hv,
          hlo, hhi⟩

theorem ParseInt_ok_iff (s : String) (v : Int) :
    ParseInt s = Except.ok v ↔ IsDecimalInt64 s v := by
  cases hs : s.data with
  | nil =>
    have h1 : ParseInt s = Except.error NumError.ErrSyntax := by simp [ParseInt, hs]
    rw [h1]
    constructor
    · intro h; cases h
    · rintro ⟨sign, digits, h, -, hne, -⟩
      rw [hs] at h
      exact absurd (List.append_eq_nil.1 h.symm).2 hne
  | cons c cs =>
    rw [isDecimalInt64_cons s v c cs hs]
    generalize hrest : (if c = '+' ∨ c = '-' then cs else c :: cs) = rest
    have hP : ∀ r, ParseUint rest = r → ParseInt s =
        match r with
        | Except.error e => Except.error e
        | Except.ok un =>
            if !decide (c = '-') && decide (un ≥ 2 ^ 63) then Except.error NumError.ErrRange
            else if decide (c = '-') && decide (un > 2 ^ 63) then Except.error NumError.ErrRange
            else Except.ok (if decide (c = '-') = true then -(un : Int) else (un : Int)) := by
      intro r hr
      subst hr
      simp only [ParseInt, hs, hrest]
    cases hp : ParseUint rest with
    | error e =>
      rw [hP _ hp]
      constructor
      · intro h; cases h
      · rintro ⟨hne, hdig, hv, hlo, hhi⟩
        have hok : ParseUint rest = Except.ok (decimalFrom 0 rest) := by
          rw [ParseUint_ok_iff]
          refine ⟨hne, hdig, rfl, ?_⟩
          by_cases hc : c = '-'
          · simp only [hc, if_true] at hv
            omega
          · simp only [hc, if_false] at hv
            omega
        rw [hp] at hok
        cases hok
    | ok un =>
      rw [hP _ hp]
      obtain ⟨hne, hdig, hD, hlt⟩ := (ParseUint_ok_iff rest un).1 hp
      rw [hD]
      by_cases hc : c = '-'
      · by_cases hb : un > 2 ^ 63
        · simp only [hc, decide_True, Bool.not_true, Bool.false_and, Bool.false_eq_true,
            if_false, hb, Bool.and_self, if_true]
          constructor
          · intro h; cases h
          · rintro ⟨-, -, hv, hlo, -⟩; omega
        · simp only [hc, decide_True, Bool.not_true, Bool.false_and, Bool.false_eq_true,
            if_false, hb, decide_False, Bool.and_false, if_true, Except.ok.injEq]
          constructor
          · intro h; exact ⟨hne, hdig, h.symm, by omega, by omega⟩
          · rintro ⟨-, -, hv, -, -⟩; exact hv.symm
      · by_cases hb : un ≥ 2 ^ 63
        · simp only [hc, decide_False, Bool.not_false, Bool.true_and, hb, decide_True, if_true]
          constructor
          · intro h; cases h
          · rintro ⟨-, -, hv, -, hhi⟩; simp only [if_false] at hv; omega
        · simp only [hc, decide_False, Bool.not_false, Bool.true_and, hb, Bool.false_eq_true,
            if_false, Bool.false_and, Except.ok.injEq]
          constructor
          · intro h; exact ⟨hne, hdig, h.symm, by omega, by omega⟩
          · rintro ⟨-, -, hv, -, -⟩; exact hv.symm

/-- The parsing part of C9: `parseUnixNano` succeeds exactly on the valid base-10 signed 64-bit
integers, with the instant that many nanoseconds after the epoch, and fails on every other
string. -/
theorem parseUnixNano_ok_iff (ts : String) (t : Time) :
    parseUnixNano ts = Except.ok t ↔ IsDecimalInt64 ts t.ns := by
  rw [← ParseInt_ok_iff]
  unfold parseUnixNano
  cases h : ParseInt ts with
  | error e => simp
  | ok nanos =>
    cases t
    simp

theorem parseUnixNano_error_iff (ts : String) :
    (∃ e, parseUnixNano ts = Except.error e) ↔ ¬ ∃ v, IsDecimalInt64 ts v := by
  constructor
  · rintro ⟨e, he⟩ ⟨v, hv⟩
    rw [(parseUnixNano_ok_iff ts ⟨v⟩).2 hv] at he
    cases he
  · intro h
    cases hp : parseUnixNano ts with
    | error e => exact ⟨e, rfl⟩
    | ok t => exact absurd ⟨t.ns, (parseUnixNano_ok_iff ts t).1 hp⟩ h

end UdsGpt
